import Mathlib

namespace GravComp

/-- Observable events of the process entry point in
interbotix_gravity_compensation_node.cpp. -/
inductive MainEvent where
  | rclcppInit
  | nodeCtor
  | executorSpin
  | fatalLog
  | rclcppShutdown
  deriving DecidableEq

/-- Result of running the entry point: the ordered event trace and the exit status. -/
structure MainResult where
  events : List MainEvent
  exitCode : Nat
  deriving DecidableEq

/-- Initial value of the success flag in the entry point
(interbotix_gravity_compensation_node.cpp line 36: the flag is set to true
before the node constructor runs). -/
def successInit : Bool := true

/-- Embedding of the entry point with the initial flag value as an explicit
parameter. The node constructor takes the success flag by reference; the
by-reference mutation is embedded as a function from the incoming flag value
to its final value. On a true final flag the executor is spun and the process
exits 0 after shutdown; on a false final flag one fatal diagnostic is logged,
shutdown is called, and the process exits 1. -/
def mainWithFlagInit (ctor : Bool → Bool) (init : Bool) : MainResult :=
  let success := ctor init
  if success then
    ⟨[MainEvent.rclcppInit, MainEvent.nodeCtor, MainEvent.executorSpin,
      MainEvent.rclcppShutdown], 0⟩
  else
    ⟨[MainEvent.rclcppInit, MainEvent.nodeCtor, MainEvent.fatalLog,
      MainEvent.rclcppShutdown], 1⟩

/-- Embedding of the entry point main of
interbotix_gravity_compensation_node.cpp: the flag starts at successInit
(true) and is handed to the node constructor by reference. -/
def main (ctor : Bool → Bool) : MainResult :=
  mainWithFlagInit ctor successInit

/-- Claim C1: if initialization fails (the success flag is false after the
constructor), the process logs exactly one fatal diagnostic, never spins the
executor, and exits with a non-zero status; if initialization succeeds, the
executor is spun. -/
theorem C1_init_failure_behavior (ctor : Bool → Bool) :
    (ctor successInit = false →
      (main ctor).events.count MainEvent.fatalLog = 1 ∧
      MainEvent.executorSpin ∉ (main ctor).events ∧
      (main ctor).exitCode ≠ 0) ∧
    (ctor successInit = true → MainEvent.executorSpin ∈ (main ctor).events) := by
  constructor
  · intro h
    simp [main, mainWithFlagInit, h]
  · intro h
    simp [main, mainWithFlagInit, h]

theorem C1_witness :
    ((main (fun _ => false)).events.count MainEvent.fatalLog = 1 ∧
      MainEvent.executorSpin ∉ (main (fun _ => false)).events ∧
      (main (fun _ => false)).exitCode ≠ 0) ∧
    MainEvent.executorSpin ∈ (main (fun _ => true)).events :=
  ⟨(C1_init_failure_behavior (fun _ => false)).1 rfl,
    (C1_init_failure_behavior (fun _ => true)).2 rfl⟩

/-- Claim C2, counterexample: the initialization outcome is not an explicit
outcome returned from initialization. It is the final value of a mutable
flag that the caller initializes, so the process outcome can depend on the
caller-supplied initial flag value: the constructor that leaves the flag
untouched yields exit 0 when the caller initializes the flag to true and
exit 1 when it initializes it to false. Moreover the failure diagnostic is
emitted ambiently by the caller (a fatalLog event in the trace of main),
not carried in any returned outcome. -/
theorem C2_counterexample :
    mainWithFlagInit (fun b => b) true ≠ mainWithFlagInit (fun b => b) false ∧
    (mainWithFlagInit (fun b => b) true).exitCode = 0 ∧
    (mainWithFlagInit (fun b => b) false).exitCode = 1 ∧
    (mainWithFlagInit (fun b => b) false).events.count MainEvent.fatalLog = 1 := by
  decide

/-- Claim C2, amended: the initialization outcome is communicated through a
mutable boolean out-parameter. The entry point initializes the flag to true,
passes it by reference to the constructor, and treats the final flag value as
the outcome; the fatal diagnostic on failure is logged ambiently by the
caller rather than carried in a returned outcome. -/
theorem C2_amended_out_param (ctor : Bool → Bool) :
    main ctor = mainWithFlagInit ctor true ∧
    ((main ctor).exitCode = 0 ↔ ctor true = true) ∧
    ((main ctor).events.count MainEvent.fatalLog = 1 ↔ ctor true = false) := by
  refine ⟨rfl, ?_, ?_⟩ <;>
    cases h : ctor true <;>
      simp [main, mainWithFlagInit, successInit, h]

theorem C2_amended_witness :
    (main (fun _ => false)).exitCode ≠ 0 ∧
    (main (fun _ => false)).events.count MainEvent.fatalLog = 1 := by
  have h := C2_amended_out_param (fun _ => false)
  refine ⟨?_, h.2.2.mpr rfl⟩
  intro h0
  exact Bool.false_ne_true (h.2.1.mp h0)

/-- Claim C9: the success flag is initialized to true before the node
constructor runs, so the process enters the spin branch unless the
constructor explicitly sets the flag to false; a constructor that leaves the
flag untouched (the identity on the flag) is treated as success. -/
theorem C9_flag_default_true :
    successInit = true ∧
    (∀ ctor : Bool → Bool,
      MainEvent.executorSpin ∈ (main ctor).events ↔ ctor successInit = true) ∧
    MainEvent.executorSpin ∈ (main (fun b => b)).events ∧
    (main (fun b => b)).exitCode = 0 := by
  refine ⟨rfl, ?_, ?_, rfl⟩
  · intro ctor
    cases h : ctor successInit <;> simp [main, mainWithFlagInit, h]
  · decide

theorem C9_witness :
    MainEvent.executorSpin ∈ (main (fun _ => true)).events :=
  (C9_flag_default_true.2.1 (fun _ => true)).mpr rfl

/-- Claim C10: whenever initialization succeeds, main returns exit status 0,
with shutdown called after the executor spin in the trace; the exit status is
1 exactly when initialization fails. -/
theorem C10_exit_status (ctor : Bool → Bool) :
    (ctor successInit = true →
      (main ctor).exitCode = 0 ∧
      (main ctor).events = [MainEvent.rclcppInit, MainEvent.nodeCtor,
        MainEvent.executorSpin, MainEvent.rclcppShutdown]) ∧
    ((main ctor).exitCode = 1 ↔ ctor successInit = false) := by
  constructor
  · intro h
    simp [main, mainWithFlagInit, h]
  · cases h : ctor successInit <;> simp [main, mainWithFlagInit, h]

theorem C10_witness :
    ((main (fun _ => true)).exitCode = 0 ∧
      (main (fun _ => true)).events = [MainEvent.rclcppInit, MainEvent.nodeCtor,
        MainEvent.executorSpin, MainEvent.rclcppShutdown]) ∧
    (main (fun _ => false)).exitCode = 1 :=
  ⟨(C10_exit_status (fun _ => true)).1 rfl,
    (C10_exit_status (fun _ => false)).2.mpr rfl⟩

/-- Modelled from the spec: the gravity-compensation core (the
InterbotixGravityCompensation class body) is not part of the available
sources; per the spec a link of the kinematic chain carries a mass, the
distance along the link to the next joint, and the distance along the link
to its center of mass (planar serial chain, revolute joints, gravity along
the negative vertical axis, angles measured from the gravity-aligned pose). -/
structure Link where
  mass : ℝ
  length : ℝ
  com : ℝ

/-- Modelled from the spec: total mass of a suffix of the chain, the
aggregate weight carried by the joint at the base of that suffix. -/
def totalMass : List (Link × ℝ) → ℝ
  | [] => 0
  | (l, _) :: rest => l.mass + totalMass rest

/-- Modelled from the spec: propagating link transforms from base to tip,
the sum over a suffix of the chain of mass times the horizontal coordinate
of the center of mass of each link, starting from joint abscissa ox and
accumulated absolute angle phi. -/
noncomputable def xMoment : List (Link × ℝ) → ℝ → ℝ → ℝ
  | [], _, _ => 0
  | (l, θ) :: rest, ox, phi =>
      l.mass * (ox + l.com * Real.sin (phi + θ)) +
        xMoment rest (ox + l.length * Real.sin (phi + θ)) (phi + θ)

/-- Modelled from the spec: horizontal coordinate of the joint at the end of
a chain segment, obtained by propagating transforms from base to tip. -/
noncomputable def endX : List (Link × ℝ) → ℝ → ℝ → ℝ
  | [], ox, _ => ox
  | (l, θ) :: rest, ox, phi =>
      endX rest (ox + l.length * Real.sin (phi + θ)) (phi + θ)

/-- Modelled from the spec: accumulated absolute angle at the end of a chain
segment. -/
def endAngle : List (Link × ℝ) → ℝ → ℝ
  | [], phi => phi
  | (_, θ) :: rest, phi => endAngle rest (phi + θ)

/-- Modelled from the spec: horizontal coordinate of the i-th joint of a
chain segment whose base joint sits at abscissa ox with accumulated angle
phi. -/
noncomputable def jointX : List (Link × ℝ) → Nat → ℝ → ℝ → ℝ
  | _, 0, ox, _ => ox
  | [], _ + 1, ox, _ => ox
  | (l, θ) :: rest, i + 1, ox, phi =>
      jointX rest i (ox + l.length * Real.sin (phi + θ)) (phi + θ)

/-- Modelled from the spec: per-joint gravity torque for a chain suffix. For
each joint, the torque is the contribution of the weight of every downstream
link acting at its center of mass, projected on the joint axis; in the
planar model this is gravity times the sum over downstream links of mass
times the horizontal lever arm of its center of mass about the joint. -/
noncomputable def torqueList (g : ℝ) : List (Link × ℝ) → ℝ → ℝ → List ℝ
  | [], _, _ => []
  | (l, θ) :: rest, ox, phi =>
      g * (xMoment ((l, θ) :: rest) ox phi -
          totalMass ((l, θ) :: rest) * ox) ::
        torqueList g rest (ox + l.length * Real.sin (phi + θ)) (phi + θ)

/-- Modelled from the spec: the gravity-torque computation of the
KinematicDynamicModel (absent from the available sources). Given the gravity
magnitude, the chain description and the joint positions, it returns one
torque per joint, computed purely from the inputs. -/
noncomputable def computeGravityTorque (g : ℝ) (chain : List Link)
    (q : List ℝ) : List ℝ :=
  torqueList g (chain.zip q) 0 0

/-- Closed-form evaluation for a single-link chain. -/
theorem computeGravityTorque_single (g m L r θ : ℝ) :
    computeGravityTorque g [⟨m, L, r⟩] [θ] = [m * g * r * Real.sin θ] := by
  simp [computeGravityTorque, torqueList, xMoment, totalMass]
  ring

/-- Closed-form evaluation for a two-link chain. -/
theorem computeGravityTorque_two (g m₁ L₁ r₁ m₂ L₂ r₂ θ₁ θ₂ : ℝ) :
    computeGravityTorque g [⟨m₁, L₁, r₁⟩, ⟨m₂, L₂, r₂⟩] [θ₁, θ₂] =
      [g * (m₁ * (r₁ * Real.sin θ₁) +
        m₂ * (L₁ * Real.sin θ₁ + r₂ * Real.sin (θ₁ + θ₂))),
       g * (m₂ * (r₂ * Real.sin (θ₁ + θ₂)))] := by
  simp [computeGravityTorque, torqueList, xMoment, totalMass]
  constructor
  all_goals ring

/-- Claim C3: for a single-joint pendulum of point mass m at distance r from
the joint axis and joint angle θ from the gravity-aligned pose, the computed
torque is m·g·r·sin θ, and in particular it matches the closed-form values
at θ equal to 0, 30 degrees, 90 degrees and 180 degrees. -/
theorem C3_single_pendulum (g m L r θ : ℝ) :
    computeGravityTorque g [⟨m, L, r⟩] [θ] = [m * g * r * Real.sin θ] ∧
    computeGravityTorque g [⟨m, L, r⟩] [0] = [0] ∧
    computeGravityTorque g [⟨m, L, r⟩] [Real.pi / 6] = [m * g * r / 2] ∧
    computeGravityTorque g [⟨m, L, r⟩] [Real.pi / 2] = [m * g * r] ∧
    computeGravityTorque g [⟨m, L, r⟩] [Real.pi] = [0] := by
  refine ⟨computeGravityTorque_single g m L r θ, ?_, ?_, ?_, ?_⟩
  all_goals rw [computeGravityTorque_single]
  · simp
  · rw [Real.sin_pi_div_six]; ring_nf
  · rw [Real.sin_pi_div_two]; ring_nf
  · simp

theorem C3_witness :
    computeGravityTorque 10 [⟨2, 3, 5⟩] [Real.pi / 2] = [2 * 10 * 5] := by
  have h := (C3_single_pendulum 10 2 3 5 0).2.2.2.1
  simpa using h

/-- Claim C5: the solver is deterministic and stateless. The embedding of
computeGravityTorque is a pure function of the gravity vector, the chain and
the joint positions; two invocations with identical joint-position input
yield identical torque output. -/
theorem C5_deterministic (g : ℝ) (chain : List Link) (q q' : List ℝ)
    (h : q = q') :
    computeGravityTorque g chain q = computeGravityTorque g chain q' := by
  rw [h]

theorem C5_witness :
    computeGravityTorque 10 [⟨1, 1, 1⟩] [0] =
      computeGravityTorque 10 [⟨1, 1, 1⟩] [0] :=
  C5_deterministic 10 [⟨1, 1, 1⟩] [0] [0] rfl

/-- Modelled from the spec: sum of the absolute values of the link masses of
a chain segment. -/
def absMassSum : List (Link × ℝ) → ℝ
  | [] => 0
  | (l, _) :: rest => |l.mass| + absMassSum rest

/-- Modelled from the spec: sum over a chain segment of the absolute lever
lengths, bounding how far any point of the segment can lie from its base. -/
def reachSum : List (Link × ℝ) → ℝ
  | [] => 0
  | (l, _) :: rest => |l.length| + |l.com| + reachSum rest

theorem absMassSum_nonneg (xs : List (Link × ℝ)) : 0 ≤ absMassSum xs := by
  induction xs with
  | nil => simp [absMassSum]
  | cons p rest ih =>
      obtain ⟨l, θ⟩ := p
      simp only [absMassSum]
      exact add_nonneg (abs_nonneg _) ih

theorem reachSum_nonneg (xs : List (Link × ℝ)) : 0 ≤ reachSum xs := by
  induction xs with
  | nil => simp [reachSum]
  | cons p rest ih =>
      obtain ⟨l, θ⟩ := p
      simp only [reachSum]
      exact add_nonneg (add_nonneg (abs_nonneg _) (abs_nonneg _)) ih

theorem abs_totalMass_le (xs : List (Link × ℝ)) :
    |totalMass xs| ≤ absMassSum xs := by
  induction xs with
  | nil => simp [totalMass, absMassSum]
  | cons p rest ih =>
      obtain ⟨l, θ⟩ := p
      simp only [totalMass, absMassSum]
      calc |l.mass + totalMass rest| ≤ |l.mass| + |totalMass rest| := abs_add _ _
        _ ≤ |l.mass| + absMassSum rest := by linarith

/-- Moving one lever from a point changes the abscissa by at most the lever
length, since the sine factor has absolute value at most one. -/
theorem abs_add_mul_sin_le (ox c x : ℝ) :
    |ox + c * Real.sin x| ≤ |ox| + |c| := by
  have hs : |Real.sin x| ≤ 1 := abs_le.mpr ⟨Real.neg_one_le_sin x, Real.sin_le_one x⟩
  calc |ox + c * Real.sin x| ≤ |ox| + |c * Real.sin x| := abs_add _ _
    _ = |ox| + |c| * |Real.sin x| := by rw [abs_mul]
    _ ≤ |ox| + |c| * 1 := by
        have hc := abs_nonneg c
        nlinarith
    _ = |ox| + |c| := by ring

theorem abs_xMoment_le (xs : List (Link × ℝ)) : ∀ ox phi : ℝ,
    |xMoment xs ox phi| ≤ absMassSum xs * (|ox| + reachSum xs) := by
  induction xs with
  | nil => intro ox phi; simp [xMoment, absMassSum, reachSum]
  | cons p rest ih =>
      obtain ⟨l, θ⟩ := p
      intro ox phi
      simp only [xMoment, absMassSum, reachSum]
      have hAM := absMassSum_nonneg rest
      have hR := reachSum_nonneg rest
      have h1 : |ox + l.com * Real.sin (phi + θ)| ≤ |ox| + |l.com| :=
        abs_add_mul_sin_le ox l.com (phi + θ)
      have h2 : |ox + l.length * Real.sin (phi + θ)| ≤ |ox| + |l.length| :=
        abs_add_mul_sin_le ox l.length (phi + θ)
      have h3 := ih (ox + l.length * Real.sin (phi + θ)) (phi + θ)
      have h4 : |l.mass * (ox + l.com * Real.sin (phi + θ)) +
          xMoment rest (ox + l.length * Real.sin (phi + θ)) (phi + θ)| ≤
          |l.mass| * (|ox| + |l.com|) +
            absMassSum rest * ((|ox| + |l.length|) + reachSum rest) := by
        have ha : |l.mass * (ox + l.com * Real.sin (phi + θ))| ≤
            |l.mass| * (|ox| + |l.com|) := by
          rw [abs_mul]
          exact mul_le_mul_of_nonneg_left h1 (abs_nonneg _)
        have hb : |xMoment rest (ox + l.length * Real.sin (phi + θ)) (phi + θ)| ≤
            absMassSum rest * ((|ox| + |l.length|) + reachSum rest) := by
          refine le_trans h3 ?_
          exact mul_le_mul_of_nonneg_left (by linarith) hAM
        calc |l.mass * (ox + l.com * Real.sin (phi + θ)) +
            xMoment rest (ox + l.length * Real.sin (phi + θ)) (phi + θ)| ≤
            |l.mass * (ox + l.com * Real.sin (phi + θ))| +
              |xMoment rest (ox + l.length * Real.sin (phi + θ)) (phi + θ)| :=
          abs_add _ _
          _ ≤ |l.mass| * (|ox| + |l.com|) +
              absMassSum rest * ((|ox| + |l.length|) + reachSum rest) := by
            linarith
      refine le_trans h4 ?_
      have hm := abs_nonneg l.mass
      have hc := abs_nonneg l.com
      have hl := abs_nonneg l.length
      nlinarith [mul_nonneg hm (add_nonneg hl hR), mul_nonneg hAM hc]

theorem torqueList_length (g : ℝ) (xs : List (Link × ℝ)) : ∀ ox phi : ℝ,
    (torqueList g xs ox phi).length = xs.length := by
  induction xs with
  | nil => intro ox phi; simp [torqueList]
  | cons p rest ih =>
      obtain ⟨l, θ⟩ := p
      intro ox phi
      simp [torqueList, ih]

theorem abs_torqueList_getD_le (g : ℝ) (xs : List (Link × ℝ)) :
    ∀ (i : Nat) (ox phi : ℝ),
    |(torqueList g xs ox phi).getD i 0| ≤
      |g| * absMassSum xs * (2 * |ox| + 2 * reachSum xs) := by
  induction xs with
  | nil => intro i ox phi; simp [torqueList, absMassSum]
  | cons p rest ih =>
      obtain ⟨l, θ⟩ := p
      intro i ox phi
      cases i with
      | zero =>
          simp only [torqueList, List.getD_cons_zero]
          have hX := abs_xMoment_le ((l, θ) :: rest) ox phi
          have hM := abs_totalMass_le ((l, θ) :: rest)
          have hAM := absMassSum_nonneg ((l, θ) :: rest)
          have hR := reachSum_nonneg ((l, θ) :: rest)
          have ho := abs_nonneg ox
          have hsub : |xMoment ((l, θ) :: rest) ox phi -
              totalMass ((l, θ) :: rest) * ox| ≤
              |xMoment ((l, θ) :: rest) ox phi| +
                |totalMass ((l, θ) :: rest)| * |ox| := by
            calc |xMoment ((l, θ) :: rest) ox phi -
                totalMass ((l, θ) :: rest) * ox| ≤
                |xMoment ((l, θ) :: rest) ox phi| +
                  |totalMass ((l, θ) :: rest) * ox| := abs_sub _ _
              _ = |xMoment ((l, θ) :: rest) ox phi| +
                  |totalMass ((l, θ) :: rest)| * |ox| := by rw [abs_mul]
          have hinner : |xMoment ((l, θ) :: rest) ox phi| +
              |totalMass ((l, θ) :: rest)| * |ox| ≤
              absMassSum ((l, θ) :: rest) *
                (2 * |ox| + 2 * reachSum ((l, θ) :: rest)) := by
            nlinarith [mul_le_mul_of_nonneg_right hM ho,
              mul_nonneg hAM hR, mul_nonneg hAM ho]
          calc |g * (xMoment ((l, θ) :: rest) ox phi -
              totalMass ((l, θ) :: rest) * ox)| =
              |g| * |xMoment ((l, θ) :: rest) ox phi -
                totalMass ((l, θ) :: rest) * ox| := abs_mul _ _
            _ ≤ |g| * (absMassSum ((l, θ) :: rest) *
                (2 * |ox| + 2 * reachSum ((l, θ) :: rest))) := by
              exact mul_le_mul_of_nonneg_left (le_trans hsub hinner) (abs_nonneg g)
            _ = |g| * absMassSum ((l, θ) :: rest) *
                (2 * |ox| + 2 * reachSum ((l, θ) :: rest)) := by ring
      | succ i' =>
          simp only [torqueList, List.getD_cons_succ, absMassSum, reachSum]
          have h := ih i' (ox + l.length * Real.sin (phi + θ)) (phi + θ)
          have h2 : |ox + l.length * Real.sin (phi + θ)| ≤ |ox| + |l.length| :=
            abs_add_mul_sin_le ox l.length (phi + θ)
          have hAM := absMassSum_nonneg rest
          have hR := reachSum_nonneg rest
          have hg := abs_nonneg g
          have hm := abs_nonneg l.mass
          have hc := abs_nonneg l.com
          have hl := abs_nonneg l.length
          have ho := abs_nonneg ox
          refine le_trans h ?_
          nlinarith [mul_le_mul_of_nonneg_left h2 (mul_nonneg hg hAM),
            mul_nonneg (mul_nonneg hg hm) ho,
            mul_nonneg (mul_nonneg hg hm) hl,
            mul_nonneg (mul_nonneg hg hm) hc,
            mul_nonneg (mul_nonneg hg hm) hR,
            mul_nonneg (mul_nonneg hg hAM) hc,
            mul_nonneg (mul_nonneg hg hAM) hR,
            mul_nonneg (mul_nonneg hg hAM) ho]

/-- Claim C6: for every input the torque vector is well defined at every
configuration (the computation is total, with one entry per joint) and every
component is bounded in absolute value by an explicit finite bound built
from the inputs; the real-valued model divides nowhere and never branches on
a denominator. -/
theorem C6_finite_output (g : ℝ) (chain : List Link) (q : List ℝ) (i : Nat) :
    (computeGravityTorque g chain q).length = min chain.length q.length ∧
    |(computeGravityTorque g chain q).getD i 0| ≤
      |g| * absMassSum (chain.zip q) * (2 * reachSum (chain.zip q)) := by
  constructor
  · simp [computeGravityTorque, torqueList_length]
  · have h := abs_torqueList_getD_le g (chain.zip q) i 0 0
    simpa [computeGravityTorque] using h

/-- Claim C7: for a single-joint chain the computed torque is odd-symmetric
in the joint angle: the torque at −θ is the negation of the torque at θ. -/
theorem C7_odd_symmetry (g m L r θ : ℝ) :
    computeGravityTorque g [⟨m, L, r⟩] [-θ] =
      (computeGravityTorque g [⟨m, L, r⟩] [θ]).map (fun x => -x) := by
  rw [computeGravityTorque_single, computeGravityTorque_single]
  simp [Real.sin_neg]

theorem totalMass_append (xs ys : List (Link × ℝ)) :
    totalMass (xs ++ ys) = totalMass xs + totalMass ys := by
  induction xs with
  | nil => simp [totalMass]
  | cons p rest ih =>
      obtain ⟨l, θ⟩ := p
      show totalMass ((l, θ) :: (rest ++ ys)) = _
      simp only [totalMass]
      rw [ih]
      ring

theorem xMoment_append (xs ys : List (Link × ℝ)) : ∀ ox phi : ℝ,
    xMoment (xs ++ ys) ox phi =
      xMoment xs ox phi + xMoment ys (endX xs ox phi) (endAngle xs phi) := by
  induction xs with
  | nil => intro ox phi; simp [xMoment, endX, endAngle]
  | cons p rest ih =>
      obtain ⟨l, θ⟩ := p
      intro ox phi
      show xMoment ((l, θ) :: (rest ++ ys)) ox phi = _
      simp only [xMoment, endX, endAngle]
      rw [ih]
      ring

/-- Appending one extra link of mass m at the tip shifts the torque at every
upstream joint by m times the gravity lever of the appended center of mass
about that joint: the torque is affine in the appended mass. -/
theorem torqueList_getD_append_single (g : ℝ) (l : Link) (θ : ℝ)
    (xs : List (Link × ℝ)) : ∀ i : Nat, i < xs.length → ∀ ox phi : ℝ,
    (torqueList g (xs ++ [(l, θ)]) ox phi).getD i 0 =
      (torqueList g xs ox phi).getD i 0 +
        g * l.mass *
          ((endX xs ox phi + l.com * Real.sin (endAngle xs phi + θ)) -
            jointX xs i ox phi) := by
  induction xs with
  | nil => intro i hi; simp at hi
  | cons p rest ih =>
      obtain ⟨l₀, θ₀⟩ := p
      intro i hi ox phi
      cases i with
      | zero =>
          have e1 : (((l₀, θ₀) : Link × ℝ) :: rest) ++ [(l, θ)] =
              ((l₀, θ₀) : Link × ℝ) :: (rest ++ [(l, θ)]) := rfl
          rw [e1]
          simp only [torqueList, List.getD_cons_zero]
          rw [← e1, xMoment_append, totalMass_append]
          simp only [xMoment, totalMass, jointX, endX, endAngle]
          ring
      | succ i' =>
          have hi' : i' < rest.length := by
            simpa using Nat.lt_of_succ_lt_succ hi
          have e1 : (((l₀, θ₀) : Link × ℝ) :: rest) ++ [(l, θ)] =
              ((l₀, θ₀) : Link × ℝ) :: (rest ++ [(l, θ)]) := rfl
          rw [e1]
          simp only [torqueList, List.getD_cons_succ, endX, endAngle, jointX]
          exact ih i' hi' (ox + l₀.length * Real.sin (phi + θ₀)) (phi + θ₀)

/-- Absolute value of an affine function with coefficients of equal sign is
monotone on the nonnegative half-line. -/
theorem abs_affine_monotone (a b : ℝ) (hab : 0 ≤ a * b) :
    MonotoneOn (fun m : ℝ => |a + m * b|) (Set.Ici 0) := by
  intro m hm m' hm' hmm
  simp only [Set.mem_Ici] at hm hm'
  rcases lt_trichotomy b 0 with hb | hb | hb
  · have ha : a ≤ 0 := by
      by_contra hcon
      push_neg at hcon
      nlinarith
    have h1 : a + m * b ≤ 0 := by nlinarith
    have h2 : a + m' * b ≤ 0 := by nlinarith
    simp only
    rw [abs_of_nonpos h1, abs_of_nonpos h2]
    nlinarith
  · simp [hb]
  · have ha : 0 ≤ a := by
      by_contra hcon
      push_neg at hcon
      nlinarith
    have h1 : 0 ≤ a + m * b := by nlinarith
    have h2 : 0 ≤ a + m' * b := by nlinarith
    simp only
    rw [abs_of_nonneg h1, abs_of_nonneg h2]
    nlinarith

/-- Claim C8, counterexample: for a fixed geometry in which the appended
non-moving downstream link folds back so that its center of mass lies on the
opposite side of the base joint, increasing the appended mass first cancels
and then reverses the base torque, so the torque magnitude on the upstream
joint is not a monotone function of that mass. -/
theorem C8_counterexample :
    ¬ MonotoneOn
      (fun m : ℝ =>
        |(computeGravityTorque 10 [⟨1, 1, 1⟩, ⟨m, 1, 2⟩]
          [Real.pi / 2, -Real.pi]).getD 0 0|)
      (Set.Ici 0) := by
  have key : ∀ m : ℝ,
      (computeGravityTorque 10 [⟨1, 1, 1⟩, ⟨m, 1, 2⟩]
        [Real.pi / 2, -Real.pi]).getD 0 0 = 10 * (1 - m) := by
    intro m
    rw [computeGravityTorque_two]
    simp only [List.getD_cons_zero]
    rw [show Real.pi / 2 + -Real.pi = -(Real.pi / 2) by ring,
      Real.sin_neg, Real.sin_pi_div_two]
    ring
  intro hmono
  have h := hmono (Set.mem_Ici.mpr le_rfl) (Set.mem_Ici.mpr zero_le_one)
    zero_le_one
  simp only [key] at h
  rw [show (10 : ℝ) * (1 - 0) = 10 by ring, show (10 : ℝ) * (1 - 1) = 0 by ring] at h
  rw [abs_of_nonneg (by norm_num : (0:ℝ) ≤ 10), abs_of_nonneg le_rfl] at h
  linarith

/-- Claim C8, amended: appending a second, non-moving downstream link makes
the torque at each upstream joint affine in the appended mass, and the
torque magnitude is a monotone nondecreasing function of that mass whenever
the gravity lever of the appended center of mass about the joint does not
oppose the torque already present (their product is nonnegative); when it
opposes, monotonicity can fail. -/
theorem C8_amended_monotone (g : ℝ) (chain : List Link) (q : List ℝ)
    (l₂ : Link) (θ₂ : ℝ) (i : Nat)
    (hlen : chain.length = q.length) (hi : i < chain.length)
    (hsign : 0 ≤ (computeGravityTorque g chain q).getD i 0 *
      (g * ((endX (chain.zip q) 0 0 +
        l₂.com * Real.sin (endAngle (chain.zip q) 0 + θ₂)) -
        jointX (chain.zip q) i 0 0))) :
    MonotoneOn
      (fun m : ℝ =>
        |(computeGravityTorque g (chain ++ [⟨m, l₂.length, l₂.com⟩])
          (q ++ [θ₂])).getD i 0|)
      (Set.Ici 0) := by
  have hq : i < q.length := hlen ▸ hi
  have hzl : i < (chain.zip q).length := by
    rw [List.length_zip]
    omega
  have hadd : ∀ m : ℝ,
      (computeGravityTorque g (chain ++ [⟨m, l₂.length, l₂.com⟩])
        (q ++ [θ₂])).getD i 0 =
      (computeGravityTorque g chain q).getD i 0 +
        m * (g * ((endX (chain.zip q) 0 0 +
          l₂.com * Real.sin (endAngle (chain.zip q) 0 + θ₂)) -
          jointX (chain.zip q) i 0 0)) := by
    intro m
    rw [computeGravityTorque, List.zip_append hlen]
    simp only [List.zip_cons_cons, List.zip_nil_right]
    rw [torqueList_getD_append_single g ⟨m, l₂.length, l₂.com⟩ θ₂
      (chain.zip q) i hzl 0 0]
    simp only [computeGravityTorque]
    ring
  have hfun : (fun m : ℝ =>
      |(computeGravityTorque g (chain ++ [⟨m, l₂.length, l₂.com⟩])
        (q ++ [θ₂])).getD i 0|) =
      fun m : ℝ =>
        |(computeGravityTorque g chain q).getD i 0 +
          m * (g * ((endX (chain.zip q) 0 0 +
            l₂.com * Real.sin (endAngle (chain.zip q) 0 + θ₂)) -
            jointX (chain.zip q) i 0 0))| := by
    funext m
    rw [hadd m]
  rw [hfun]
  exact abs_affine_monotone _ _ hsign

theorem C8_witness :
    |(computeGravityTorque 10 [⟨1, 1, 1⟩, ⟨1, 1, 1⟩]
      [Real.pi / 2, 0]).getD 0 0| ≤
    |(computeGravityTorque 10 [⟨1, 1, 1⟩, ⟨2, 1, 1⟩]
      [Real.pi / 2, 0]).getD 0 0| := by
  have hsign : 0 ≤ (computeGravityTorque 10 [⟨1, 1, 1⟩] [Real.pi / 2]).getD 0 0 *
      (10 * ((endX ([⟨1, 1, 1⟩].zip [Real.pi / 2]) 0 0 +
        (⟨0, 1, 1⟩ : Link).com *
          Real.sin (endAngle ([⟨1, 1, 1⟩].zip [Real.pi / 2]) 0 + 0)) -
        jointX ([⟨1, 1, 1⟩].zip [Real.pi / 2]) 0 0 0)) := by
    norm_num [computeGravityTorque_single, endX, endAngle, jointX,
      List.zip_cons_cons, List.zip_nil_right, List.getD_cons_zero,
      Real.sin_pi_div_two]
  exact C8_amended_monotone 10 [⟨1, 1, 1⟩] [Real.pi / 2] ⟨0, 1, 1⟩ 0 0
    rfl (by norm_num) hsign
    (Set.mem_Ici.mpr zero_le_one)
    (Set.mem_Ici.mpr (by norm_num : (0:ℝ) ≤ 2))
    (by norm_num : (1:ℝ) ≤ 2)

/-- Modelled from the spec: the observable outcome of one control-loop tick
of the ControlLoopScheduler (absent from the available sources): the command
handed to the actuator sink, whether the solver was invoked, and whether a
degraded-input condition was logged. -/
structure TickResult where
  command : List ℝ
  solverInvoked : Bool
  degradedLogged : Bool

/-- Modelled from the spec: the fail-safe command, an all-zero torque vector
of the chain's joint count. -/
def failSafeCommand (n : Nat) : List ℝ :=
  List.replicate n 0

/-- Modelled from the spec: one tick of the ControlLoopScheduler (absent
from the available sources). The tick reads the latest joint-state sample
and its age; if the age exceeds the staleness threshold it emits the
fail-safe all-zero command, logs a degraded-input condition and skips
solving; otherwise it invokes the solver on the sampled positions and hands
the resulting torque command to the sink. The previously computed torque is
available to the tick but never consulted. -/
noncomputable def controlTick (staleThreshold age g : ℝ) (chain : List Link)
    (positions _prevTorque : List ℝ) : TickResult :=
  if staleThreshold < age then
    ⟨failSafeCommand chain.length, false, true⟩
  else
    ⟨computeGravityTorque g chain positions, true, false⟩

/-- Claim C4: on every tick whose sample age exceeds the staleness
threshold, the emitted command is exactly the all-zero torque vector (one
zero per joint), the solver is not invoked, and the result is independent of
any previously computed torque. -/
theorem C4_stale_failsafe (staleThreshold age g : ℝ) (chain : List Link)
    (positions prevTorque : List ℝ) (h : staleThreshold < age) :
    (controlTick staleThreshold age g chain positions prevTorque).command =
      List.replicate chain.length 0 ∧
    (∀ x ∈ (controlTick staleThreshold age g chain positions
      prevTorque).command, x = 0) ∧
    (controlTick staleThreshold age g chain positions
      prevTorque).solverInvoked = false ∧
    (controlTick staleThreshold age g chain positions
      prevTorque).degradedLogged = true ∧
    ∀ prevTorque' : List ℝ,
      controlTick staleThreshold age g chain positions prevTorque =
        controlTick staleThreshold age g chain positions prevTorque' := by
  refine ⟨?_, ?_, ?_, ?_, ?_⟩
  · simp [controlTick, h, failSafeCommand]
  · intro x hx
    simp [controlTick, h, failSafeCommand] at hx
    exact hx.2
  · simp [controlTick, h]
  · simp [controlTick, h]
  · intro prevTorque'
    rfl

theorem C4_witness :
    (controlTick 1 2 10 [⟨1, 1, 1⟩] [0] [5]).command = [0] ∧
    (controlTick 1 2 10 [⟨1, 1, 1⟩] [0] [5]).solverInvoked = false := by
  have h := C4_stale_failsafe 1 2 10 [⟨1, 1, 1⟩] [0] [5]
    (by norm_num : (1:ℝ) < 2)
  exact ⟨h.1, h.2.2.1⟩

end GravComp
